import Mathlib

/-!
Verification of the response-orchestration engine of the kirg-discord-authbot
repository (src/brain.py and src/main.py) against its natural-language
specification.  The Python code is shallowly embedded: text is modelled as
explicit character lists (`Str`), the completion provider is an opaque
outcome parameter, and the asynchronous coordinator is modelled as explicit
state passing and a small-step transition relation.
-/

/-- Characters of a piece of text.  All text processing in the embedding is
done over explicit character lists, mirroring Python string operations. -/
abbrev Str := List Char

/-- Python `str.lower()` (ASCII case folding, as used by the source for
names, slang tokens and echo comparison). -/
def lowerL (s : Str) : Str := s.map Char.toLower

/-- Drop leading whitespace characters. -/
def wsDrop (s : Str) : Str := s.dropWhile Char.isWhitespace

/-- Python `str.strip()`: remove leading and trailing whitespace. -/
def pstrip (s : Str) : Str := (wsDrop (wsDrop s).reverse).reverse

/-- Truth of `leadEq pat s` means `pat` is an initial segment of `s`
(character-by-character equality). -/
def leadEq : Str → Str → Bool
  | [], _ => true
  | _ :: _, [] => false
  | p :: ps, c :: cs => p == c && leadEq ps cs

/-- Python `pat in s`: substring containment. -/
def containsSub (pat : Str) : Str → Bool
  | [] => pat == []
  | c :: rest => leadEq pat (c :: rest) || containsSub pat rest

/-- Python `s.split('\n')`: split on newline characters, keeping empty
pieces (so the empty text yields one empty piece). -/
def splitNl : Str → List Str
  | [] => [[]]
  | c :: rest =>
    if c = '\n' then [] :: splitNl rest
    else
      match splitNl rest with
      | [] => [[c]]
      | l :: ls => (c :: l) :: ls

/-- Auxiliary scanner for `wordsOf`: `cur` is the reversed current word. -/
def wordsAux (cur : Str) : Str → List Str
  | [] => if cur = [] then [] else [cur.reverse]
  | c :: rest =>
    if c.isWhitespace then
      if cur = [] then wordsAux [] rest else cur.reverse :: wordsAux [] rest
    else wordsAux (c :: cur) rest

/-- Python `s.split()` with no argument: split on whitespace runs, dropping
empty pieces (brain.py line 144). -/
def wordsOf (s : Str) : List Str := wordsAux [] s

/-- Python `" ".join(ws)` (brain.py line 154). -/
def joinSpace : List Str → Str
  | [] => []
  | [w] => w
  | w :: ws => w ++ ' ' :: joinSpace ws

/-- The two quote characters removed by the post-processor:
straight double quote and straight apostrophe (code point 39), exactly the
arguments of `.replace('"', '').replace("'", "")` in brain.py line 154. -/
def quoteChars : Str := ['"', Char.ofNat 39]

/-- Python `line.replace('"', '').replace("'", "")` from brain.py line 154:
remove every straight double quote and straight apostrophe. -/
def removeQuotes (s : Str) : Str := s.filter (fun c => decide (c ∉ quoteChars))

/-- Python `w.lower().replace('.', '').replace(',', '')` from brain.py line 148:
the normal form under which a word is compared with the slang vocabulary. -/
def normWord (w : Str) : Str :=
  (lowerL w).filter (fun c => decide (c ≠ '.' ∧ c ≠ ','))

/-- The fixed slang vocabulary `common_slang` of brain.py line 123. -/
def common_slang : List Str :=
  [("intankavel").data, ("slk").data, ("fds").data, ("mid").data, ("peak").data]

/-- The literal skip marker `"[SKIP]"` (brain.py lines 118 and 127). -/
def skipMarker : Str := ("[SKIP]").data

/-- Python `line.split(":", 1)` combined with the `":" in line` test
(brain.py lines 130-131): `none` when the line has no colon, otherwise the
text before the first colon and the text after it. -/
def splitFirstColon : Str → Option (Str × Str)
  | [] => none
  | c :: rest =>
    if c = ':' then some ([], rest)
    else
      match splitFirstColon rest with
      | none => none
      | some (a, b) => some (c :: a, b)

/-- The hallucinated-history filter of brain.py lines 129-137, applied to an
already stripped line: on a line with a colon, the text before the first
colon is stripped and lowercased; if it equals the lowercased bot name the
prefix is removed and the stripped remainder kept, else if it equals a
lowercased participant name the whole line is dropped, else the line is kept
unchanged.  Lines without a colon are kept unchanged. -/
def colonFilter (users : List Str) (myName : Str) (line : Str) : Option Str :=
  match splitFirstColon line with
  | none => some line
  | some (pre, post) =>
    let np := lowerL (pstrip pre)
    if np ∈ users.map lowerL ∨ np = lowerL myName then
      if np = lowerL myName then some (pstrip post) else none
    else some line

/-- The per-line slang deduplication loop of brain.py lines 144-152: walk
the words, keep every word whose normal form is not in `common_slang`, and
keep a slang word only when its normal form has not been seen before in the
line (the `seen_slang` set is modelled as the list `seen`). -/
def slangDedup (seen : List Str) : List Str → List Str
  | [] => []
  | w :: ws =>
    let wc := normWord w
    if wc ∈ common_slang then
      if wc ∈ seen then slangDedup seen ws
      else w :: slangDedup (wc :: seen) ws
    else w :: slangDedup seen ws

/-- The outcome of one call to the completion provider, the opaque external
collaborator: the call raised an exception, returned text, or no provider
was configured (brain.py lines 43-72). -/
inductive ProviderOutcome where
  | throws (msg : Str)
  | returns (text : Str)
  | unconfigured
deriving DecidableEq

/-- Embedding of `KirgBrain._generate_response` (brain.py lines 41-72) as a function of
the provider outcome: a successful call returns the stripped text, an
exception is caught and turned into `none` (the `except` clause at lines
70-72), and a missing provider yields `none` (line 69). -/
def generate_response (o : ProviderOutcome) : Option Str :=
  match o with
  | .returns s => some (pstrip s)
  | .throws _ => none
  | .unconfigured => none

/-- Lowercase open tag `<think>` of the generation-artifact regex
(brain.py line 116). -/
def openThinkTag : Str := ("<think>").data

/-- Lowercase close tag `</think>`. -/
def closeThinkTag : Str := ("</think>").data

/-- Lowercase open tag `<thought>`. -/
def openThoughtTag : Str := ("<thought>").data

/-- Lowercase close tag `</thought>`. -/
def closeThoughtTag : Str := ("</thought>").data

/-- Remainder of `s` after the first case-insensitive occurrence of `pat`,
or `none` when `pat` does not occur (used for the non-greedy close-tag
search of the think-tag regex). -/
def afterFirstCI (pat : Str) : Str → Option Str
  | [] => none
  | c :: rest =>
    if leadEq pat (lowerL (c :: rest)) then some (rest.drop (pat.length - 1))
    else afterFirstCI pat rest

/-- Fuelled scanner for `re.sub(r'<(think|thought)>.*?</\1>', '', s)` with
`DOTALL` and `IGNORECASE` (brain.py lines 116 and 188): at each position, a
case-insensitive open tag followed somewhere by its matching close tag is
deleted up to the nearest close tag (non-greedy), and scanning resumes after
the deleted span; otherwise the character is kept.  One unit of fuel is
spent per step, and each step consumes at least one input character, so fuel
equal to the input length is always sufficient. -/
def stripThinkGo : Nat → Str → Str
  | 0, s => s
  | _ + 1, [] => []
  | n + 1, c :: rest =>
    if leadEq openThinkTag (lowerL (c :: rest)) then
      match afterFirstCI closeThinkTag (rest.drop (openThinkTag.length - 1)) with
      | some rem => stripThinkGo n rem
      | none => c :: stripThinkGo n rest
    else if leadEq openThoughtTag (lowerL (c :: rest)) then
      match afterFirstCI closeThoughtTag (rest.drop (openThoughtTag.length - 1)) with
      | some rem => stripThinkGo n rem
      | none => c :: stripThinkGo n rest
    else c :: stripThinkGo n rest

/-- Strip `<think>...</think>` / `<thought>...</thought>` spans. -/
def stripThink (s : Str) : Str := stripThinkGo s.length s

/-- The body of the per-line loop of `decide_and_respond`
(brain.py lines 125-156) up to and including the quote removal: strip the
line, drop it when empty or containing the skip marker, apply the
hallucinated-history colon filter, drop it when it echoes a recent message,
deduplicate slang, join and remove straight quotes, and drop it when the
result is empty.  Returns the candidate message, or `none` when the line is
dropped. -/
def lineCandidate (users : List Str) (myName : Str) (recents : List Str)
    (line0 : Str) : Option Str :=
  let line := pstrip line0
  if line = [] then none
  else if containsSub skipMarker line then none
  else
    match colonFilter users myName line with
    | none => none
    | some line1 =>
      if pstrip (lowerL line1) ∈ recents then none
      else
        let lc := removeQuotes (joinSpace (slangDedup [] (wordsOf line1)))
        if lc = [] then none else some lc

/-- One iteration of the accumulation into `valid_msgs`
(brain.py lines 156-159): a surviving candidate is appended unless it
case-insensitively duplicates an already accepted message. -/
def accLine (users : List Str) (myName : Str) (recents : List Str)
    (valid : List Str) (line0 : Str) : List Str :=
  match lineCandidate users myName recents line0 with
  | none => valid
  | some lc =>
    if valid.any (fun v => lowerL lc == lowerL v) then valid else valid ++ [lc]

/-- Embedding of `KirgBrain.decide_and_respond` (brain.py lines 74-161) as a function of
the chat history, the bot name, the direct-address flag and the provider
outcome: recent contents and active users are collected from the history
(lines 95-101), a falsy provider result yields `none` (lines 112-113), think
tags are stripped and a skip marker yields `none` (lines 116-119), the text
is split into lines and each line run through the post-processing loop
(lines 121-159), and at most three accepted messages are returned, `none` if
none survive (line 161). -/
def decide_and_respond (hist : List (Str × Str)) (myName : Str)
    (isDirect : Bool) (o : ProviderOutcome) : Option (List Str) :=
  let users := hist.map Prod.fst
  let recents := hist.map (fun p => pstrip (lowerL p.2))
  match generate_response o with
  | none => none
  | some r =>
    if r = [] then none
    else
      let resp := pstrip (stripThink r)
      if containsSub skipMarker resp then none
      else
        let valid := (splitNl resp).foldl (accLine users myName recents) []
        if valid = [] then none else some (valid.take 3)

/-- The fixed proactive fallback utterance of brain.py line 186. -/
def fallbackLine : Str := ("slk que tédio").data

/-- Embedding of `KirgBrain.decide_proactive_message` (brain.py lines 163-189) as a
function of the chat history, the bot name and the provider outcome: a falsy
provider result or a raw output containing the skip marker yields the fixed
fallback utterance (lines 185-186); otherwise think tags are stripped and
the single quote-stripped lowercased message is returned (lines 188-189). -/
def decide_proactive_message (hist : List (Str × Str)) (myName : Str)
    (o : ProviderOutcome) : List Str :=
  match generate_response o with
  | none => [fallbackLine]
  | some r =>
    if r = [] then [fallbackLine]
    else if containsSub skipMarker r then [fallbackLine]
    else
      let resp := pstrip (stripThink r)
      [lowerL (removeQuotes resp)]

/-- Fuelled scanner for `re.compile(re.escape(name), re.IGNORECASE).sub(mention, t)`
(main.py lines 137-138): at each position where the lowercase pattern is an
initial segment of the lowercased remaining text, the replacement is
emitted, the matched span is skipped, and scanning resumes after it;
otherwise the character is kept.  Each step consumes at least one character,
so fuel equal to the text length is always sufficient (the pattern is a
nonempty stored alias). -/
def subCIGo (pat rep : Str) : Nat → Str → Str
  | 0, s => s
  | _ + 1, [] => []
  | n + 1, c :: rest =>
    if pat.length != 0 && leadEq pat (lowerL (c :: rest)) then
      rep ++ subCIGo pat rep n (rest.drop (pat.length - 1))
    else c :: subCIGo pat rep n rest

/-- Case-insensitive replacement of all occurrences of `pat` by `rep`. -/
def subCI (pat rep s : Str) : Str := subCIGo pat rep s.length s

/-- Insert a `(alias, mention)` pair into a list sorted by decreasing alias
length: the new pair is placed after every entry whose alias is at least as
long, so an element inserted later than its equals ends up after them. -/
def insertDesc (x : Str × Str) : List (Str × Str) → List (Str × Str)
  | [] => [x]
  | y :: ys => if y.1.length < x.1.length then x :: y :: ys else y :: insertDesc x ys

/-- Sort the known-alias list by decreasing alias length, inserting the
elements left to right; since each element is inserted after all earlier
entries of equal length, equal-length aliases keep their original relative
order — a stable descending sort, modelling Python's stable
`sorted(keys, key=len, reverse=True)` of main.py line 132. -/
def sortLenDesc (l : List (Str × Str)) : List (Str × Str) :=
  l.foldl (fun acc x => insertDesc x acc) []

/-- Embedding of `KirgClient._format_mentions` (main.py lines 129-139): empty text is
returned unchanged; otherwise, for each known alias in order of decreasing
length, if the (lowercase) alias occurs in the lowercased current text, all
its case-insensitive occurrences are replaced by the alias's mention
token. -/
def format_mentions (known : List (Str × Str)) (text : Str) : Str :=
  if text = [] then text
  else
    (sortLenDesc known).foldl
      (fun t p => if containsSub p.1 (lowerL t) = true then subCI p.1 p.2 t else t)
      text

/-- Constant `HISTORY_LIMIT` of main.py line 14: the capacity of each per-channel
`deque(maxlen=HISTORY_LIMIT)`. -/
def HISTORY_LIMIT : Nat := 12

/-- Appending to a `collections.deque` with `maxlen=cap`: the new element is
appended and the oldest entries are evicted when the capacity is
exceeded. -/
def dequeAppend (cap : Nat) (mem : List (Str × Str)) (x : Str × Str) :
    List (Str × Str) :=
  let m := mem ++ [x]
  if cap < m.length then m.drop (m.length - cap) else m

/-- The phase of `KirgClient.on_message` (main.py lines 197-237) from the
handler's entry for a target-channel message up to the start of the
reading-delay wait, for a message whose resolved author name is `speaker`
and cleaned content is `text`: when the response lock is already held the
handler returns at once (line 210-211) and the result is `none` — no memory
update and no debounce wait; otherwise the `(speaker, text)` pair is
appended to the bounded conversation memory (line 220) without touching the
lock, and `some` of the memory contents at the moment the reading-delay wait
begins (line 237) is returned. -/
def on_message_prewait (lockLocked : Bool) (mem : List (Str × Str))
    (speaker text : Str) : Option (List (Str × Str)) :=
  if lockLocked then none
  else some (dequeAppend HISTORY_LIMIT mem (speaker, text))

/-- Events of the debounce mechanism of main.py lines 232-240, for one
conversation: `arrive t` is an incoming message handler writing its capture
token `t` into `channel_debounces` (line 233, tokens are strictly increasing
`time.time()` stamps, so distinct events carry distinct tokens); `wake t` is
the wake-up of the cycle that captured `t` after its reading delay
(line 237), which proceeds to the decision step only when the stored token
still equals `t` (line 239). -/
inductive DebEvent where
  | arrive (t : Nat)
  | wake (t : Nat)
deriving DecidableEq

/-- The stored debounce token after running a list of events from stored
token `tok`: each arrival overwrites the token, wake-ups leave it
unchanged. -/
def tokAfter (tok : Option Nat) : List DebEvent → Option Nat
  | [] => tok
  | .arrive t :: rest => tokAfter (some t) rest
  | .wake _ :: rest => tokAfter tok rest

/-- The tokens of the wait cycles that pass the staleness check of main.py
line 239 and proceed to the decision step, when the events run from stored
token `tok`. -/
def runDeb (tok : Option Nat) : List DebEvent → List Nat
  | [] => []
  | .arrive t :: rest => runDeb (some t) rest
  | .wake t :: rest => (if tok = some t then [t] else []) ++ runDeb tok rest

/-- One atomic step of a decision-and-send cycle, as delimited by the
suspension points of the event loop: `tryEnter` is the check-and-acquire of
the response lock — `if self.processing_lock.locked(): return` immediately
followed, with no intervening await, by `async with self.processing_lock`
(main.py lines 242-245 for the reactive cycle, lines 87-88 for the proactive
cycle); `send s` is the delivery of one line of the response package
(main.py line 289 inside `_send_response_package`); `release` is the lock
release at the end of the `async with` block. -/
inductive Instr where
  | tryEnter
  | send (s : Str)
  | release
deriving DecidableEq

/-- The instruction sequence of one decision-and-send cycle that intends to
send the lines `ls`: check-and-acquire the lock, send each line in order,
release the lock.  The provider call and the typing delays are internal
suspensions of the critical section that touch neither the lock nor the
output, so they are not separate instructions. -/
def cycleProg (ls : List Str) : List Instr :=
  Instr.tryEnter :: (ls.map Instr.send ++ [Instr.release])

/-- A configuration of the two concurrently scheduled cycles (one reactive,
one proactive), indexed by `Bool`: the remaining instructions of each cycle,
which cycle currently owns `processing_lock`, and the lines delivered to the
channel so far, each tagged with the cycle that sent it. -/
structure Conf where
  rem : Bool → List Instr
  owns : Bool → Bool
  out : List (Bool × Str)

/-- The initial configuration: both cycles are about to run, the lock is
free, nothing has been sent. -/
def initConf (ls : Bool → List Str) : Conf :=
  ⟨fun i => cycleProg (ls i), fun _ => false, []⟩

/-- Small-step interleaving semantics of the two cycles.  `tryEnter` while
the lock is held aborts the whole cycle (the `locked()` check of main.py
lines 242-243 and 87); `tryEnter` while the lock is free atomically acquires
it (no await separates the check from the acquisition); `send` appends the
line to the channel output; `release` frees the lock. -/
inductive CStep : Conf → Conf → Prop where
  | enterAbort (c : Conf) (i : Bool) (rest : List Instr)
      (hr : c.rem i = Instr.tryEnter :: rest)
      (hl : c.owns true = true ∨ c.owns false = true) :
      CStep c ⟨Function.update c.rem i [], c.owns, c.out⟩
  | enterOk (c : Conf) (i : Bool) (rest : List Instr)
      (hr : c.rem i = Instr.tryEnter :: rest)
      (h0 : c.owns true = false) (h1 : c.owns false = false) :
      CStep c ⟨Function.update c.rem i rest, Function.update c.owns i true, c.out⟩
  | sendStep (c : Conf) (i : Bool) (s : Str) (rest : List Instr)
      (hr : c.rem i = Instr.send s :: rest) :
      CStep c ⟨Function.update c.rem i rest, c.owns, c.out ++ [(i, s)]⟩
  | releaseStep (c : Conf) (i : Bool) (rest : List Instr)
      (hr : c.rem i = Instr.release :: rest) :
      CStep c ⟨Function.update c.rem i rest, Function.update c.owns i false, c.out⟩

/-- Configurations reachable from the initial one by interleaved steps. -/
def ReachC (ls : Bool → List Str) (c : Conf) : Prop :=
  Relation.ReflTransGen CStep (initConf ls) c

/-- Splitting a debounce run at a list concatenation: the stored token seen
by the second part is the one left behind by the first part. -/
lemma runDeb_append (tok : Option Nat) (xs ys : List DebEvent) :
    runDeb tok (xs ++ ys) = runDeb tok xs ++ runDeb (tokAfter tok xs) ys := by
  induction xs generalizing tok with
  | nil => rfl
  | cons e rest ih =>
    cases e with
    | arrive t => simp [runDeb, tokAfter, ih]
    | wake t => simp [runDeb, tokAfter, ih]

/-- The stored token after a concatenation of event lists. -/
lemma tokAfter_append (tok : Option Nat) (xs ys : List DebEvent) :
    tokAfter tok (xs ++ ys) = tokAfter (tokAfter tok xs) ys := by
  induction xs generalizing tok with
  | nil => rfl
  | cons e rest ih => cases e <;> simp [tokAfter, ih]

/-- Wake-ups alone do not change the stored token. -/
lemma tokAfter_no_arrive (l : List DebEvent) (tok : Option Nat)
    (h : ∀ u, DebEvent.arrive u ∉ l) : tokAfter tok l = tok := by
  induction l generalizing tok with
  | nil => rfl
  | cons e rest ih =>
    cases e with
    | arrive t => exact absurd (List.mem_cons_self _ _) (h t)
    | wake t => exact ih tok (fun u hu => h u (List.mem_cons_of_mem _ hu))

/-- If some arrival occurs in `mid` and every arrival in `mid` carries a
token different from `t`, the stored token after `mid` is not `t`. -/
lemma tokAfter_ne (t : Nat) (mid : List DebEvent) :
    ∀ tok : Option Nat, (∃ u, DebEvent.arrive u ∈ mid) →
      (∀ u, DebEvent.arrive u ∈ mid → u ≠ t) → tokAfter tok mid ≠ some t := by
  induction mid with
  | nil =>
    intro tok h1 _
    obtain ⟨u, hu⟩ := h1
    simp at hu
  | cons e rest ih =>
    intro tok h1 h2
    cases e with
    | arrive u =>
      by_cases hrest : ∃ v, DebEvent.arrive v ∈ rest
      · exact ih (some u) hrest (fun v hv => h2 v (List.mem_cons_of_mem _ hv))
      · push_neg at hrest
        show tokAfter (some u) rest ≠ some t
        rw [tokAfter_no_arrive rest (some u) hrest]
        intro hc
        exact h2 u (List.mem_cons_self _ _) (Option.some.inj hc)
    | wake u =>
      obtain ⟨v, hv⟩ := h1
      have hv' : DebEvent.arrive v ∈ rest := by
        rcases List.mem_cons.mp hv with h | h
        · exact absurd h (by simp)
        · exact h
      exact ih tok ⟨v, hv'⟩ (fun w hw => h2 w (List.mem_cons_of_mem _ hw))

/-- C1 counterexample.  The claim asserts that a message arriving while a
decision-and-send cycle holds the response lock is still recorded in
conversation memory.  On the code it is not: `on_message` returns at line
210-211, before the memory append of line 220, whenever
`processing_lock.locked()` — here, a message from Ana arriving with the lock
held leaves the handler with no memory update and no debounce wait
(`none`), so the pair `("Ana", "oi")` is never appended. -/
theorem c1_counterexample :
    on_message_prewait true [] (("Ana").data) (("oi").data) = none := rfl

/-- C1, amended.  For an inbound message on the target conversation that
arrives while the response lock is free, the `(speaker, text)` pair is
appended to the bounded conversation memory before the debounce wait
begins, and the append itself does not acquire the lock; but a message that
arrives while a decision-and-send cycle holds the lock is discarded by the
early return at main.py line 210-211 and is never recorded in memory. -/
theorem c1_theorem (lockLocked : Bool) (mem : List (Str × Str))
    (speaker text : Str) :
    (lockLocked = false →
      on_message_prewait lockLocked mem speaker text =
        some (dequeAppend HISTORY_LIMIT mem (speaker, text))) ∧
    (lockLocked = true →
      on_message_prewait lockLocked mem speaker text = none) := by
  constructor <;> intro h <;> subst h <;> rfl

/-- Witness for C1's amended theorem at a concrete input: with the lock
free, Ana's message is appended before the wait begins. -/
theorem c1_witness :
    on_message_prewait false [] (("Ana").data) (("oi").data) =
      some (dequeAppend HISTORY_LIMIT [] ((("Ana").data), (("oi").data))) :=
  (c1_theorem false [] (("Ana").data) (("oi").data)).1 rfl

/-- C2.  For a line containing a colon (so `splitFirstColon` yields the text
`pre` before the first colon and the text `post` after it), the
post-processor's colon filter behaves as specified: when the
whitespace-trimmed prefix case-insensitively equals the bot's own name the
prefix is stripped and the trimmed remainder kept; when it case-insensitively
equals a known participant's name and not the bot's, the whole line is
dropped; otherwise the line is kept unchanged.  (The code compares
`parts[0].strip().lower()`, brain.py lines 131-137, so the prefix is
whitespace-trimmed before the case-insensitive comparison.) -/
theorem c2_theorem (users : List Str) (myName line pre post : Str)
    (h : splitFirstColon line = some (pre, post)) :
    (lowerL (pstrip pre) = lowerL myName →
      colonFilter users myName line = some (pstrip post)) ∧
    (lowerL (pstrip pre) ∈ users.map lowerL →
      lowerL (pstrip pre) ≠ lowerL myName →
      colonFilter users myName line = none) ∧
    (lowerL (pstrip pre) ∉ users.map lowerL →
      lowerL (pstrip pre) ≠ lowerL myName →
      colonFilter users myName line = some line) := by
  simp only [colonFilter, h]
  refine ⟨fun h1 => ?_, fun h1 h2 => ?_, fun h1 h2 => ?_⟩
  · rw [if_pos (Or.inr h1), if_pos h1]
  · rw [if_pos (Or.inl h1), if_neg h2]
  · rw [if_neg (by tauto)]

/-- Witness for C2 at a concrete input: the line `"Ian: oi"` with bot name
`"Ian"` has its prefix stripped, keeping `"oi"`. -/
theorem c2_witness :
    splitFirstColon (("Ian: oi").data) = some ((("Ian").data), ((" oi").data)) ∧
    colonFilter [(("Ana").data)] (("Ian").data) (("Ian: oi").data) =
      some (pstrip ((" oi").data)) := by
  have h : splitFirstColon (("Ian: oi").data)
      = some ((("Ian").data), ((" oi").data)) := by decide
  exact ⟨h, (c2_theorem [(("Ana").data)] (("Ian").data) _ _ _ h).1 (by decide)⟩

/-- C3.  Debounce staleness (main.py lines 232-240): a wait cycle that
captured token `t` proceeds to the decision step only when the stored token
at wake-up still equals `t`.  When the events between the cycle's arrival
and its wake-up contain at least one newer arrival (all arrivals carry
fresh `time.time()` tokens, so their tokens differ from `t`), the stored
token no longer equals `t`, the check at line 239 fails, and the cycle
contributes no proceeding decision — the run of the whole trace equals the
run without that wake-up.  In particular, for two events at tokens 0 and 1
inside one reading-delay window, only the cycle of token 1 proceeds. -/
theorem c3_theorem (pre mid post : List DebEvent) (t : Nat) (tok : Option Nat)
    (h1 : ∃ u, DebEvent.arrive u ∈ mid)
    (h2 : ∀ u, DebEvent.arrive u ∈ mid → u ≠ t) :
    tokAfter (some t) mid ≠ some t ∧
    runDeb tok (pre ++ DebEvent.arrive t :: (mid ++ DebEvent.wake t :: post)) =
      runDeb tok (pre ++ DebEvent.arrive t :: mid) ++
        runDeb (tokAfter (some t) mid) post ∧
    runDeb none [DebEvent.arrive 0, DebEvent.arrive 1, DebEvent.wake 0,
      DebEvent.wake 1] = [1] := by
  have hne := tokAfter_ne t mid (some t) h1 h2
  refine ⟨hne, ?_, by decide⟩
  have hassoc : pre ++ DebEvent.arrive t :: (mid ++ DebEvent.wake t :: post)
      = (pre ++ DebEvent.arrive t :: mid) ++ (DebEvent.wake t :: post) := by
    simp
  have htok : tokAfter tok (pre ++ DebEvent.arrive t :: mid)
      = tokAfter (some t) mid := by
    rw [tokAfter_append]
    rfl
  rw [hassoc, runDeb_append, htok]
  congr 1
  show (if tokAfter (some t) mid = some t then [t] else []) ++ _ = _
  rw [if_neg hne, List.nil_append]

/-- Witness for C3 at a concrete trace: the cycle of token 0 is superseded
by the arrival of token 1 and aborts; only cycle 1 proceeds. -/
theorem c3_witness :
    tokAfter (some 0) [DebEvent.arrive 1] ≠ some 0 ∧
    runDeb none ([] ++ DebEvent.arrive 0 ::
        ([DebEvent.arrive 1] ++ DebEvent.wake 0 :: [])) =
      runDeb none ([] ++ DebEvent.arrive 0 :: [DebEvent.arrive 1]) ++
        runDeb (tokAfter (some 0) [DebEvent.arrive 1]) [] ∧
    runDeb none [DebEvent.arrive 0, DebEvent.arrive 1, DebEvent.wake 0,
      DebEvent.wake 1] = [1] :=
  c3_theorem [] [DebEvent.arrive 1] [] 0 none ⟨1, by simp⟩
    (by intro u hu; simp at hu; omega)

/-- C4.  Provider exceptions are caught inside the decision engine: for
every chat history, bot name and direct flag, when the provider call throws,
`_generate_response` catches the exception and returns `None` (brain.py
lines 70-72), and `decide_and_respond` then returns `None` (lines 112-113)
— the exception never propagates to the caller. -/
theorem c4_theorem (hist : List (Str × Str)) (myName : Str) (isDirect : Bool)
    (e : Str) :
    generate_response (.throws e) = none ∧
    decide_and_respond hist myName isDirect (.throws e) = none :=
  ⟨rfl, rfl⟩

/-- C5 counterexample.  The claim asserts that for every possible provider
outcome the proactive path returns a non-empty list of usable messages.  A
provider output consisting only of think-tag content, `<think>abc</think>`,
is neither falsy nor contains the skip marker, so it passes the check of
brain.py line 185; the tag stripping of line 188 then reduces it to the
empty string, and line 189 returns a one-element list whose single message
is the empty string — a message with no usable content. -/
theorem c5_counterexample :
    decide_proactive_message [] (("Ian").data)
      (.returns ("<think>abc</think>").data) = [([] : Str)] := by decide

/-- C5, amended.  `decide_proactive_message` returns the single fixed
fallback utterance `"slk que tédio"` whenever the provider call throws,
whenever no provider is configured, and whenever the provider output
contains the skip marker (brain.py lines 183-186); and for every possible
provider outcome it returns a non-empty list of exactly one message — the
proactive path never returns `None` or an empty list, though the single
message is not guaranteed usable: it is the empty string when the provider
output consists only of think-tag content (see the counterexample). -/
theorem c5_theorem (hist : List (Str × Str)) (myName : Str) (e r : Str)
    (o : ProviderOutcome) (hr : generate_response o = some r)
    (hskip : containsSub skipMarker r = true) :
    decide_proactive_message hist myName (.throws e) = [fallbackLine] ∧
    decide_proactive_message hist myName .unconfigured = [fallbackLine] ∧
    decide_proactive_message hist myName o = [fallbackLine] ∧
    ∀ o' : ProviderOutcome, decide_proactive_message hist myName o' ≠ [] ∧
      (decide_proactive_message hist myName o').length = 1 := by
  refine ⟨rfl, rfl, ?_, ?_⟩
  · simp only [decide_proactive_message, hr]
    by_cases hre : r = []
    · subst hre
      exact absurd hskip (by decide)
    · rw [if_neg hre, if_pos hskip]
  · intro o'
    unfold decide_proactive_message
    cases hg : generate_response o' with
    | none => exact ⟨by simp, rfl⟩
    | some r' =>
      dsimp only
      split_ifs <;> exact ⟨by simp, rfl⟩

/-- Witness for C5's amended theorem at a concrete input: a provider output
containing the skip marker yields the fallback utterance, and the reply is
a non-empty one-element list. -/
theorem c5_witness :
    decide_proactive_message [] (("Ian").data) (.throws ("boom").data) =
      [fallbackLine] ∧
    decide_proactive_message [] (("Ian").data) (.returns ("[SKIP]").data) =
      [fallbackLine] ∧
    decide_proactive_message [] (("Ian").data) (.returns ("[SKIP]").data) ≠ [] ∧
    (decide_proactive_message [] (("Ian").data)
      (.returns ("[SKIP]").data)).length = 1 := by
  have h := c5_theorem [] (("Ian").data) (("boom").data)
    (pstrip ("[SKIP]").data) (.returns ("[SKIP]").data) rfl (by decide)
  exact ⟨h.1, h.2.2.1, (h.2.2.2 (.returns ("[SKIP]").data)).1,
    (h.2.2.2 (.returns ("[SKIP]").data)).2⟩

/-- A surviving line candidate went through the quote removal of brain.py
line 154, so it contains no straight quote characters. -/
lemma lineCandidate_noQuotes (users : List Str) (myName : Str)
    (recents : List Str) (line0 lc : Str)
    (h : lineCandidate users myName recents line0 = some lc) :
    ∀ c ∈ lc, c ∉ quoteChars := by
  simp only [lineCandidate] at h
  split at h
  · exact absurd h (by simp)
  split at h
  · exact absurd h (by simp)
  split at h
  · exact absurd h (by simp)
  next line1 heq =>
    split at h
    · exact absurd h (by simp)
    split at h
    · exact absurd h (by simp)
    next =>
      intro c hc
      rw [← Option.some.inj h] at hc
      have := List.of_mem_filter hc
      exact of_decide_eq_true this

/-- The accumulation loop only ever appends quote-free candidates. -/
lemma foldl_accLine_noQuotes (users : List Str) (myName : Str)
    (recents : List Str) (lines : List Str) (acc : List Str)
    (hacc : ∀ l ∈ acc, ∀ c ∈ l, c ∉ quoteChars) :
    ∀ l ∈ lines.foldl (accLine users myName recents) acc, ∀ c ∈ l,
      c ∉ quoteChars := by
  induction lines generalizing acc with
  | nil => exact hacc
  | cons x xs ih =>
    rw [List.foldl_cons]
    apply ih
    unfold accLine
    cases hlc : lineCandidate users myName recents x with
    | none => exact hacc
    | some lc =>
      dsimp only
      split_ifs with hdup
      · exact hacc
      · intro l hl
        rcases List.mem_append.mp hl with hmem | hmem
        · exact hacc l hmem
        · have hleq : l = lc := by simpa using hmem
          subst hleq
          exact lineCandidate_noQuotes _ _ _ _ _ hlc

/-- C6 counterexample.  The claim asserts that every kept line has all
straight and curly quote characters removed.  The code (brain.py line 154)
removes only the straight double quote and the straight apostrophe: a
provider output consisting of the word `oi` wrapped in curly quotes
(U+201C / U+201D) passes the whole post-processor unchanged, and the kept
line still contains the left curly quote character. -/
theorem c6_counterexample :
    decide_and_respond [] (("Ian").data) false (.returns ("“oi”").data) =
      some [("“oi”").data] ∧ '“' ∈ ("“oi”").data :=
  ⟨by decide, by decide⟩

/-- C6, amended.  Every kept line of the post-processor has all straight
quote characters (straight double quote and straight apostrophe, the two
arguments of the `replace` calls at brain.py line 154) removed from it;
curly quote characters are not removed. -/
theorem c6_theorem (hist : List (Str × Str)) (myName : Str) (isDirect : Bool)
    (o : ProviderOutcome) (out : List Str)
    (h : decide_and_respond hist myName isDirect o = some out) :
    ∀ l ∈ out, ∀ c ∈ l, c ∉ quoteChars := by
  unfold decide_and_respond at h
  cases hg : generate_response o with
  | none => rw [hg] at h; exact absurd h (by simp)
  | some r =>
    rw [hg] at h
    dsimp only at h
    split at h
    · exact absurd h (by simp)
    split at h
    · exact absurd h (by simp)
    split at h
    · exact absurd h (by simp)
    next =>
      rw [← Option.some.inj h]
      intro l hl
      exact foldl_accLine_noQuotes _ _ _ _ [] (by simp) l
        (List.take_subset _ _ hl)

/-- Witness for C6's amended theorem at a concrete input: the kept line
`oi` contains no straight quote characters. -/
theorem c6_witness :
    decide_and_respond [] (("Ian").data) false (.returns ("oi").data) =
      some [("oi").data] ∧
    ∀ l ∈ [("oi").data], ∀ c ∈ l, c ∉ quoteChars :=
  ⟨by decide, c6_theorem [] (("Ian").data) false (.returns ("oi").data)
    [("oi").data] (by decide)⟩

/-- Slang deduplication only drops words: the output is a sublist of the
input, so all surviving words keep their original order. -/
lemma slangDedup_sublist (seen : List Str) (ws : List Str) :
    (slangDedup seen ws).Sublist ws := by
  induction ws generalizing seen with
  | nil => simp [slangDedup]
  | cons w ws ih =>
    unfold slangDedup
    dsimp only
    split_ifs with h1 h2
    · exact (ih seen).cons _
    · exact (ih _).cons₂ _
    · exact (ih seen).cons₂ _

/-- Slang deduplication keeps every non-slang word. -/
lemma slangDedup_nonslang (seen : List Str) (ws : List Str) :
    (slangDedup seen ws).filter (fun w => decide (normWord w ∉ common_slang)) =
      ws.filter (fun w => decide (normWord w ∉ common_slang)) := by
  induction ws generalizing seen with
  | nil => rfl
  | cons w ws ih =>
    by_cases h1 : normWord w ∈ common_slang
    · by_cases h2 : normWord w ∈ seen
      · simp only [slangDedup, if_pos h1, if_pos h2]
        rw [ih seen, List.filter_cons]
        simp [h1]
      · have hpw : ¬(decide (normWord w ∉ common_slang) = true) := by simp [h1]
        simp only [slangDedup, if_pos h1, if_neg h2]
        rw [List.filter_cons, List.filter_cons, if_neg hpw, if_neg hpw]
        exact ih (normWord w :: seen)
    · have hpw : decide (normWord w ∉ common_slang) = true := by simp [h1]
      simp only [slangDedup, if_neg h1]
      rw [List.filter_cons, List.filter_cons, if_pos hpw, if_pos hpw]
      rw [ih seen]

/-- Slang deduplication keeps exactly the first occurrence of each slang
normal form: filtering the output for words normalising to a slang token
`t` (not already seen) yields the first such word of the input. -/
lemma slangDedup_first (t : Str) (ht : t ∈ common_slang) (ws : List Str) :
    ∀ seen : List Str,
      (slangDedup seen ws).filter (fun w => decide (normWord w = t)) =
        if t ∈ seen then []
        else (ws.filter (fun w => decide (normWord w = t))).take 1 := by
  induction ws with
  | nil => intro seen; simp [slangDedup]
  | cons w ws ih =>
    intro seen
    by_cases h1 : normWord w ∈ common_slang
    · by_cases h2 : normWord w ∈ seen
      · simp only [slangDedup, if_pos h1, if_pos h2]
        rw [ih seen]
        by_cases hts : t ∈ seen
        · simp [hts]
        · have hw : ¬(normWord w = t) := fun hh => hts (hh ▸ h2)
          simp [hts, List.filter_cons, hw]
      · simp only [slangDedup, if_pos h1, if_neg h2]
        rw [List.filter_cons]
        by_cases hw : normWord w = t
        · have hts : t ∉ seen := fun hh => h2 (hw ▸ hh)
          have hmem : t ∈ normWord w :: seen := by
            rw [hw]; exact List.mem_cons_self _ _
          rw [ih (normWord w :: seen), if_pos hmem]
          simp [hw, hts, List.filter_cons]
        · have hiff : (t ∈ normWord w :: seen) ↔ t ∈ seen := by
            simp only [List.mem_cons]
            constructor
            · rintro (hh | hh)
              · exact absurd hh.symm hw
              · exact hh
            · exact Or.inr
          rw [ih (normWord w :: seen)]
          by_cases hts : t ∈ seen
          · simp [hts, hiff, hw]
          · simp [hts, hiff, hw, List.filter_cons]
    · have hw : ¬(normWord w = t) := fun hh => h1 (hh ▸ ht)
      simp only [slangDedup, if_neg h1]
      rw [List.filter_cons, List.filter_cons]
      simp [hw]
      exact ih seen

/-- C7.  Within each post-processed line, for every token of the fixed
slang vocabulary only its first occurrence (under the normal form of
brain.py line 148: lowercased, dots and commas removed) is kept and every
later repeat of the same slang token is dropped, while all non-slang words
are preserved in their original order: the output of the deduplication loop
(brain.py lines 143-152) is a sublist of the input words, its non-slang
words are exactly those of the input, and its words normalising to a given
slang token `t` are exactly the first such word of the input. -/
theorem c7_theorem (ws : List Str) (t : Str) (ht : t ∈ common_slang) :
    (slangDedup [] ws).Sublist ws ∧
    (slangDedup [] ws).filter (fun w => decide (normWord w ∉ common_slang)) =
      ws.filter (fun w => decide (normWord w ∉ common_slang)) ∧
    (slangDedup [] ws).filter (fun w => decide (normWord w = t)) =
      (ws.filter (fun w => decide (normWord w = t))).take 1 := by
  refine ⟨slangDedup_sublist [] ws, slangDedup_nonslang [] ws, ?_⟩
  have h := slangDedup_first t ht ws []
  simpa using h

/-- Witness for C7 at the spec's example: in `slk que isso slk mid` only
the first `slk` survives. -/
theorem c7_witness :
    (("slk").data ∈ common_slang) ∧
    (slangDedup [] [("slk").data, ("que").data, ("isso").data, ("slk").data,
        ("mid").data]).filter
        (fun w => decide (normWord w = ("slk").data)) =
      ([("slk").data, ("que").data, ("isso").data, ("slk").data,
        ("mid").data].filter
        (fun w => decide (normWord w = ("slk").data))).take 1 :=
  ⟨by decide, (c7_theorem [("slk").data, ("que").data, ("isso").data,
    ("slk").data, ("mid").data] (("slk").data) (by decide)).2.2⟩

/-- Members of a descending-length insertion come from the inserted element
or the original list. -/
lemma mem_insertDesc (x p : Str × Str) (l : List (Str × Str)) :
    p ∈ insertDesc x l → p = x ∨ p ∈ l := by
  induction l with
  | nil => simp [insertDesc]
  | cons y ys ih =>
    unfold insertDesc
    split_ifs with hlen
    · intro h
      rcases List.mem_cons.mp h with h | h
      · exact Or.inl h
      · exact Or.inr h
    · intro h
      rcases List.mem_cons.mp h with h | h
      · exact Or.inr (h ▸ List.mem_cons_self _ _)
      · rcases ih h with h' | h'
        · exact Or.inl h'
        · exact Or.inr (List.mem_cons_of_mem _ h')

/-- Members of the insertion fold come from the accumulator or the input. -/
lemma mem_foldl_insertDesc (l : List (Str × Str)) :
    ∀ (acc : List (Str × Str)) (p : Str × Str),
      p ∈ l.foldl (fun acc x => insertDesc x acc) acc → p ∈ acc ∨ p ∈ l := by
  induction l with
  | nil =>
    intro acc p h
    exact Or.inl h
  | cons x xs ih =>
    intro acc p h
    rw [List.foldl_cons] at h
    rcases ih _ p h with h' | h'
    · rcases mem_insertDesc x p acc h' with h'' | h''
      · exact Or.inr (h'' ▸ List.mem_cons_self _ _)
      · exact Or.inl h''
    · exact Or.inr (List.mem_cons_of_mem _ h')

/-- Members of the length-sorted alias list come from the original list. -/
lemma mem_sortLenDesc (p : Str × Str) (l : List (Str × Str)) :
    p ∈ sortLenDesc l → p ∈ l := by
  intro h
  rcases mem_foldl_insertDesc l [] p h with h' | h'
  · exact absurd h' (List.not_mem_nil _)
  · exact h'

/-- When no alias occurs in the lowercased text, the replacement fold
leaves the text unchanged. -/
lemma foldl_mentions_id (l : List (Str × Str)) (t : Str)
    (h : ∀ p ∈ l, containsSub p.1 (lowerL t) = false) :
    l.foldl
      (fun t p => if containsSub p.1 (lowerL t) = true then subCI p.1 p.2 t
        else t) t = t := by
  induction l with
  | nil => rfl
  | cons x xs ih =>
    rw [List.foldl_cons]
    have hx : containsSub x.1 (lowerL t) = false := h x (List.mem_cons_self _ _)
    rw [if_neg (by simp [hx])]
    exact ih (fun p hp => h p (List.mem_cons_of_mem _ hp))

/-- Resolution via `_format_mentions` leaves text with no matching alias unchanged. -/
lemma format_mentions_nomatch (known : List (Str × Str)) (text : Str)
    (h : ∀ p ∈ known, containsSub p.1 (lowerL text) = false) :
    format_mentions known text = text := by
  unfold format_mentions
  split_ifs with he
  · rfl
  · exact foldl_mentions_id _ _ (fun p hp => h p (mem_sortLenDesc p known hp))

/-- C8.  Mention resolution (main.py lines 129-139) replaces known aliases
case-insensitively with their reference tokens, trying longer aliases
before shorter ones, so the shorter alias `ian` never matches inside the
longer alias `ianzinho`: with aliases `ian ↦ @U1` and `ianzinho ↦ @U2`,
`oi ianzinho` resolves to `oi @U2`; the replacement is case-insensitive
(`oi IAN` resolves to `oi @U1`); and resolution is idempotent on text
containing no matching alias. -/
theorem c8_theorem (known : List (Str × Str)) (text : Str)
    (h : ∀ p ∈ known, containsSub p.1 (lowerL text) = false) :
    format_mentions
        [(("ian").data, ("@U1").data), (("ianzinho").data, ("@U2").data)]
        (("oi ianzinho").data) = ("oi @U2").data ∧
    format_mentions [(("ian").data, ("@U1").data)] (("oi IAN").data) =
      ("oi @U1").data ∧
    format_mentions known (format_mentions known text) =
      format_mentions known text := by
  have hid := format_mentions_nomatch known text h
  exact ⟨by decide, by decide, by rw [hid, hid]⟩

/-- Witness for C8 at concrete inputs: the longest-alias-first example, and
idempotence on alias-free text. -/
theorem c8_witness :
    format_mentions
        [(("ian").data, ("@U1").data), (("ianzinho").data, ("@U2").data)]
        (("oi ianzinho").data) = ("oi @U2").data ∧
    format_mentions [] (format_mentions [] (("oi").data)) =
      format_mentions [] (("oi").data) := by
  have h := c8_theorem [] (("oi").data) (by simp)
  exact ⟨h.1, h.2.2⟩

/-- The phase of one cycle, relating its full line list `ls`, its remaining
instructions, whether it currently owns the lock, and the lines it has sent
so far: not yet started; inside its critical section having sent the first
`k` lines; finished after sending everything; or aborted having sent
nothing. -/
inductive TView (ls : List Str) : List Instr → Bool → List Str → Prop where
  | start : TView ls (cycleProg ls) false []
  | mid (k : Nat) (hk : k ≤ ls.length) :
      TView ls ((ls.drop k).map Instr.send ++ [Instr.release]) true (ls.take k)
  | done : TView ls [] false ls
  | dead : TView ls [] false []

/-- The inductive invariant of the two-cycle system: each cycle is in a
consistent phase, at most one cycle owns the lock, and the channel output
consists of at most two homogeneous blocks — a completed cycle's full block
followed by the other cycle's (possibly still growing) block. -/
def InvC (ls : Bool → List Str) (c : Conf) : Prop :=
  ∃ s0 s1 : List Str,
    TView (ls true) (c.rem true) (c.owns true) s0 ∧
    TView (ls false) (c.rem false) (c.owns false) s1 ∧
    (c.owns true = false ∨ c.owns false = false) ∧
    ((s1 = [] ∧ c.out = s0.map (Prod.mk true)) ∨
     (s0 = [] ∧ c.out = s1.map (Prod.mk false)) ∨
     (s0 = ls true ∧
       c.out = (ls true).map (Prod.mk true) ++ s1.map (Prod.mk false)) ∨
     (s1 = ls false ∧
       c.out = (ls false).map (Prod.mk false) ++ s0.map (Prod.mk true)))

/-- A cycle whose next instruction is `tryEnter` has not started: it does
not own the lock, has sent nothing, and the rest of its program is its send
loop followed by the release. -/
lemma tview_tryEnter (ls : List Str) (rem : List Instr) (own : Bool)
    (s : List Str) (rest : List Instr) (h : TView ls rem own s)
    (hr : rem = Instr.tryEnter :: rest) :
    own = false ∧ s = [] ∧ rest = ls.map Instr.send ++ [Instr.release] := by
  cases h with
  | start =>
    unfold cycleProg at hr
    exact ⟨rfl, rfl, ((List.cons.inj hr).2).symm⟩
  | mid k hk =>
    exfalso
    cases hdk : ls.drop k with
    | nil => rw [hdk] at hr; simp at hr
    | cons a tl => rw [hdk] at hr; simp at hr
  | done => exact absurd hr (by simp)
  | dead => exact absurd hr (by simp)

/-- A cycle whose next instruction is `send w` owns the lock and is midway
through its send loop: it has sent the first `k` lines, `w` is line `k`,
and the remaining program sends the lines after `k` and releases. -/
lemma tview_send (ls : List Str) (rem : List Instr) (own : Bool)
    (s : List Str) (w : Str) (rest : List Instr) (h : TView ls rem own s)
    (hr : rem = Instr.send w :: rest) :
    own = true ∧
    ∃ k, k < ls.length ∧ s = ls.take k ∧
      rest = (ls.drop (k + 1)).map Instr.send ++ [Instr.release] ∧
      ls.take (k + 1) = ls.take k ++ [w] := by
  cases h with
  | start =>
    exfalso
    unfold cycleProg at hr
    simp at hr
  | mid k hk =>
    cases hdk : ls.drop k with
    | nil => rw [hdk] at hr; simp at hr
    | cons a tl =>
      rw [hdk] at hr
      simp only [List.map_cons, List.cons_append] at hr
      have haw : a = w := by
        have h1 := (List.cons.inj hr).1
        injection h1
      have hrest : rest = tl.map Instr.send ++ [Instr.release] :=
        ((List.cons.inj hr).2).symm
      have hklt : k < ls.length := by
        by_contra hle
        push_neg at hle
        rw [List.drop_eq_nil_of_le hle] at hdk
        exact absurd hdk (by simp)
      have hg : ls[k]? = some w := by
        have hgd := List.getElem?_drop ls k 0
        rw [hdk] at hgd
        simpa [haw] using hgd.symm
      have htl : tl = ls.drop (k + 1) := by
        have htd := List.tail_drop ls k
        rw [hdk] at htd
        simpa using htd
      refine ⟨rfl, k, hklt, rfl, ?_, ?_⟩
      · rw [hrest, htl]
      · rw [List.take_succ, hg]
        rfl
  | done => exact absurd hr (by simp)
  | dead => exact absurd hr (by simp)

/-- A cycle whose next instruction is `release` owns the lock, has sent all
its lines, and has nothing left afterwards. -/
lemma tview_release (ls : List Str) (rem : List Instr) (own : Bool)
    (s : List Str) (rest : List Instr) (h : TView ls rem own s)
    (hr : rem = Instr.release :: rest) :
    own = true ∧ s = ls ∧ rest = [] := by
  cases h with
  | start =>
    exfalso
    unfold cycleProg at hr
    simp at hr
  | mid k hk =>
    cases hdk : ls.drop k with
    | cons a tl => rw [hdk] at hr; simp at hr
    | nil =>
      rw [hdk] at hr
      simp only [List.map_nil, List.nil_append] at hr
      have hrest : rest = [] := ((List.cons.inj hr).2).symm
      have hlen : ls.length ≤ k := by
        by_contra hlt
        push_neg at hlt
        have hne : ls.drop k ≠ [] := by
          intro hc
          rw [List.drop_eq_nil_iff] at hc
          omega
        exact hne hdk
      exact ⟨rfl, List.take_of_length_le hlen, hrest⟩
  | done => exact absurd hr (by simp)
  | dead => exact absurd hr (by simp)

/-- A cycle that does not own the lock has sent nothing or everything. -/
lemma tview_notOwn (ls : List Str) (rem : List Instr) (s : List Str)
    (h : TView ls rem false s) : s = [] ∨ s = ls := by
  cases h with
  | start => exact Or.inl rfl
  | done => exact Or.inr rfl
  | dead => exact Or.inl rfl

/-- The invariant holds initially. -/
lemma invC_init (ls : Bool → List Str) : InvC ls (initConf ls) :=
  ⟨[], [], TView.start, TView.start, Or.inl rfl, Or.inl ⟨rfl, rfl⟩⟩

/-- The invariant is preserved by every interleaving step. -/
lemma invC_step (ls : Bool → List Str) (c c' : Conf) (hs : CStep c c')
    (hi : InvC ls c) : InvC ls c' := by
  obtain ⟨s0, s1, ht, hf, hmx, hout⟩ := hi
  cases hs with
  | enterAbort i rest hr hl =>
    cases i
    · obtain ⟨hown, hs1, -⟩ := tview_tryEnter (ls false) _ _ _ rest hf hr
      subst hs1
      refine ⟨s0, [], ?_, ?_, hmx, hout⟩
      · dsimp only
        rw [Function.update_noteq (by decide)]
        exact ht
      · dsimp only
        rw [Function.update_same, hown]
        exact TView.dead
    · obtain ⟨hown, hs0, -⟩ := tview_tryEnter (ls true) _ _ _ rest ht hr
      subst hs0
      refine ⟨[], s1, ?_, ?_, hmx, hout⟩
      · dsimp only
        rw [Function.update_same, hown]
        exact TView.dead
      · dsimp only
        rw [Function.update_noteq (by decide)]
        exact hf
  | enterOk i rest hr h0 h1 =>
    cases i
    · obtain ⟨hown, hs1, hrest⟩ := tview_tryEnter (ls false) _ _ _ rest hf hr
      subst hs1
      refine ⟨s0, [], ?_, ?_, Or.inl ?_, hout⟩
      · dsimp only
        rw [Function.update_noteq (by decide), Function.update_noteq (by decide)]
        exact ht
      · dsimp only
        rw [Function.update_same, Function.update_same, hrest]
        have hm0 := @TView.mid (ls false) 0 (Nat.zero_le _)
        simpa using hm0
      · dsimp only
        rw [Function.update_noteq (by decide)]
        exact h0
    · obtain ⟨hown, hs0, hrest⟩ := tview_tryEnter (ls true) _ _ _ rest ht hr
      subst hs0
      refine ⟨[], s1, ?_, ?_, Or.inr ?_, hout⟩
      · dsimp only
        rw [Function.update_same, Function.update_same, hrest]
        have hm0 := @TView.mid (ls true) 0 (Nat.zero_le _)
        simpa using hm0
      · dsimp only
        rw [Function.update_noteq (by decide), Function.update_noteq (by decide)]
        exact hf
      · dsimp only
        rw [Function.update_noteq (by decide)]
        exact h1
  | sendStep i w rest hr =>
    cases i
    · obtain ⟨hown, k, hklt, hs1, hrest, htake⟩ :=
        tview_send (ls false) _ _ _ w rest hf hr
      have hmx' : c.owns true = false := by
        rcases hmx with hm | hm
        · exact hm
        · rw [hown] at hm
          exact absurd hm (by decide)
      refine ⟨s0, s1 ++ [w], ?_, ?_, Or.inl hmx', ?_⟩
      · dsimp only
        rw [Function.update_noteq (by decide)]
        exact ht
      · dsimp only
        rw [Function.update_same, hown, hrest]
        have heq : s1 ++ [w] = (ls false).take (k + 1) := by
          rw [hs1, htake]
        rw [heq]
        exact TView.mid (k + 1) (by omega)
      · dsimp only
        have ht' : TView (ls true) (c.rem true) false s0 := by
          rw [← hmx']
          exact ht
        rcases hout with ⟨h1, h2⟩ | ⟨h1, h2⟩ | ⟨h1, h2⟩ | ⟨h1, h2⟩
        · rcases tview_notOwn (ls true) _ _ ht' with h0 | h0
          · exact Or.inr (Or.inl ⟨h0, by simp [h2, h1, h0]⟩)
          · exact Or.inr (Or.inr (Or.inl ⟨h0, by simp [h2, h1, h0]⟩))
        · exact Or.inr (Or.inl ⟨h1, by simp [h2]⟩)
        · exact Or.inr (Or.inr (Or.inl ⟨h1, by simp [h2]⟩))
        · exfalso
          have hlen : s1.length = k := by
            rw [hs1, List.length_take]
            omega
          rw [h1] at hlen
          omega
    · obtain ⟨hown, k, hklt, hs0, hrest, htake⟩ :=
        tview_send (ls true) _ _ _ w rest ht hr
      have hmx' : c.owns false = false := by
        rcases hmx with hm | hm
        · rw [hown] at hm
          exact absurd hm (by decide)
        · exact hm
      refine ⟨s0 ++ [w], s1, ?_, ?_, Or.inr hmx', ?_⟩
      · dsimp only
        rw [Function.update_same, hown, hrest]
        have heq : s0 ++ [w] = (ls true).take (k + 1) := by
          rw [hs0, htake]
        rw [heq]
        exact TView.mid (k + 1) (by omega)
      · dsimp only
        rw [Function.update_noteq (by decide)]
        exact hf
      · dsimp only
        have hf' : TView (ls false) (c.rem false) false s1 := by
          have hcopy := hf
          rw [hmx'] at hcopy
          exact hcopy
        rcases hout with ⟨h1, h2⟩ | ⟨h1, h2⟩ | ⟨h1, h2⟩ | ⟨h1, h2⟩
        · exact Or.inl ⟨h1, by simp [h2]⟩
        · rcases tview_notOwn (ls false) _ _ hf' with h0 | h0
          · exact Or.inl ⟨h0, by simp [h2, h1, h0]⟩
          · exact Or.inr (Or.inr (Or.inr ⟨h0, by simp [h2, h1, h0]⟩))
        · exfalso
          have hlen : s0.length = k := by
            rw [hs0, List.length_take]
            omega
          rw [h1] at hlen
          omega
        · exact Or.inr (Or.inr (Or.inr ⟨h1, by simp [h2]⟩))
  | releaseStep i rest hr =>
    cases i
    · obtain ⟨hown, hs1, hrest⟩ := tview_release (ls false) _ _ _ rest hf hr
      subst hrest
      refine ⟨s0, s1, ?_, ?_, Or.inr ?_, hout⟩
      · dsimp only
        rw [Function.update_noteq (by decide), Function.update_noteq (by decide)]
        exact ht
      · dsimp only
        rw [Function.update_same, Function.update_same, hs1]
        exact TView.done
      · dsimp only
        rw [Function.update_same]
    · obtain ⟨hown, hs0, hrest⟩ := tview_release (ls true) _ _ _ rest ht hr
      subst hrest
      refine ⟨s0, s1, ?_, ?_, Or.inl ?_, hout⟩
      · dsimp only
        rw [Function.update_same, Function.update_same, hs0]
        exact TView.done
      · dsimp only
        rw [Function.update_noteq (by decide), Function.update_noteq (by decide)]
        exact hf
      · dsimp only
        rw [Function.update_same]

/-- The invariant holds in every reachable configuration. -/
lemma invC_reach (ls : Bool → List Str) (c : Conf) (h : ReachC ls c) :
    InvC ls c := by
  induction h with
  | refl => exact invC_init ls
  | tail _ hbc ih => exact invC_step ls _ _ hbc ih

/-- C9.  Lock exclusivity: in every configuration reachable by interleaving
a reactive and a proactive decision-and-send cycle, at most one cycle owns
the response lock (the check-and-acquire of main.py lines 242-245 and 87-88
makes the second cycle abort while the first is in flight), and the lines
delivered to the channel form two homogeneous blocks — the output lines of
the two send loops are never interleaved. -/
theorem c9_theorem (ls : Bool → List Str) (c : Conf) (h : ReachC ls c) :
    ¬(c.owns true = true ∧ c.owns false = true) ∧
    ∃ (i : Bool) (a b : List Str),
      c.out = a.map (Prod.mk i) ++ b.map (Prod.mk (!i)) := by
  obtain ⟨s0, s1, -, -, hmx, hout⟩ := invC_reach ls c h
  constructor
  · rintro ⟨h0, h1⟩
    rcases hmx with hm | hm
    · rw [h0] at hm
      exact absurd hm (by decide)
    · rw [h1] at hm
      exact absurd hm (by decide)
  · rcases hout with ⟨-, h2⟩ | ⟨-, h2⟩ | ⟨-, h2⟩ | ⟨-, h2⟩
    · exact ⟨true, s0, [], by simp [h2]⟩
    · exact ⟨false, s1, [], by simp [h2]⟩
    · exact ⟨true, ls true, s1, by simp [h2]⟩
    · exact ⟨false, ls false, s0, by simp [h2]⟩

/-- Witness for C9 at a concrete reachable configuration (the initial one,
reached by the empty step sequence, with one line to send per cycle). -/
theorem c9_witness :
    ¬((initConf (fun _ => [("oi").data])).owns true = true ∧
        (initConf (fun _ => [("oi").data])).owns false = true) ∧
    ∃ (i : Bool) (a b : List Str),
      (initConf (fun _ => [("oi").data])).out =
        a.map (Prod.mk i) ++ b.map (Prod.mk (!i)) :=
  c9_theorem (fun _ => [("oi").data]) (initConf (fun _ => [("oi").data]))
    Relation.ReflTransGen.refl

/-- C10.  For every input, `decide_proactive_message` returns a list of
exactly one string — the proactive path never splits the provider output on
newlines (a two-line provider output comes back as one message containing
the newline, lowercased), and the single string may be empty when the
provider output consists only of think-tag content. -/
theorem c10_theorem (hist : List (Str × Str)) (myName : Str)
    (o : ProviderOutcome) :
    (decide_proactive_message hist myName o).length = 1 ∧
    decide_proactive_message [] (("Ian").data)
      (.returns ("<think>abc</think>").data) = [[]] ∧
    decide_proactive_message [] (("Ian").data) (.returns ("a\nB c").data) =
      [("a\nb c").data] := by
  refine ⟨?_, by decide, by decide⟩
  unfold decide_proactive_message
  cases generate_response o with
  | none => rfl
  | some r =>
    dsimp only
    split_ifs <;> rfl
